import Mathlib

/-
Verification of the ruinfuck Brainfuck interpreter and optimizer
(src/vm.rs, src/optimizer.rs, src/parser.rs).

Shallow embedding conventions:
  * The instruction tree Node mirrors vm.rs exactly (payloads: u8 amounts as
    Nat, isize/i32 offsets as Int, i16 Mul factors as Int).
  * Machine-integer arithmetic is explicit: u8 arithmetic is mod 256
    (u8add, u8sub, u8mul), u16 pointer wrap is mod 65536 (offset_index
    mirrors fn offset_index: (pos as u16).wrapping_add(offset as u16)).
  * NUMBER_OF_CELLS mirrors vm.rs: u16::max_value() as usize = 65535.
    The cells array of State therefore has indices 0..65534, while
    offset_index produces addresses 0..65535; the tape of the executable
    model is a total map over the 65536 addresses offset_index can produce,
    and the bounds question (whether a produced address is a valid index of
    the 65535-element array) is treated separately where a claim is about it.
  * I/O streams are byte lists; the input/output byte-stream error payloads
    (format strings) are elided, so RuntimeError constructors are nullary.
  * run is the fuel-indexed union of run_block and Node::execute: one unit
    of fuel per executed instruction, per loop re-entry and per scan stride.
    RunRes.div means the fuel ran out (the Rust code simply does not
    terminate in that case).
-/

inductive Node where
  | Shift (delta : Int)
  | Inc (amount : Nat) (offset : Int) (commit : Bool)
  | Dec (amount : Nat) (offset : Int) (commit : Bool)
  | Mul (factor : Int) (into : Int) (offset : Int) (commit : Bool)
  | Assign (value : Nat) (offset : Int) (commit : Bool)
  | Scan (interval : Int)
  | Out (offset : Int) (commit : Bool)
  | In (offset : Int) (commit : Bool)
  | Conditional (body : List Node)
  | Comment (c : Char)

inductive RuntimeError where
  | WriteError
  | ReadError
  deriving DecidableEq

/-- NUMBER_OF_CELLS from vm.rs: u16::max_value() as usize. -/
def NUMBER_OF_CELLS : Nat := 65535

/-- u8 wrapping addition. -/
def u8add (a b : Nat) : Nat := (a + b) % 256

/-- u8 wrapping subtraction. -/
def u8sub (a b : Nat) : Nat := (a + (256 - b % 256)) % 256

/-- u8 wrapping multiplication. -/
def u8mul (a b : Nat) : Nat := (a % 256) * (b % 256) % 256

/-- fn offset_index(pos, offset): (pos as u16).wrapping_add(offset as u16) as usize,
i.e. (pos + offset) mod 2^16. -/
def offset_index (pos : Nat) (offset : Int) : Nat :=
  (((pos : Int) + offset) % 65536).toNat

/-- Tape state of vm.rs: data pointer plus cells. -/
structure State where
  pos : Nat
  cells : Nat → Nat

/-- A machine: tape state plus the input byte source and output byte sink. -/
structure Mach where
  st : State
  inp : List Nat
  out : List Nat

/-- Result of a fuelled execution. -/
inductive RunRes where
  | div
  | err (e : RuntimeError)
  | ok (m : Mach)

/-- Functional update of a tape. -/
def upd (c : Nat → Nat) (p v : Nat) : Nat → Nat :=
  fun i => if i = p then v else c i

/-- run_block together with Node::execute from vm.rs, indexed by fuel.
Each constructor case mirrors the corresponding arm of Node::execute;
Conditional re-enters its body while the cell at the current pointer is
non-zero, Scan strides by its interval until the cell under the pointer is
zero, In takes the next input byte and fails with ReadError when the input
is exhausted, Out appends a byte to the output. -/
def run : Nat → List Node → Mach → RunRes
  | _, [], m => .ok m
  | 0, _ :: _, _ => .div
  | f + 1, n :: ns, m =>
    match n with
    | .Shift i => run f ns ⟨⟨offset_index m.st.pos i, m.st.cells⟩, m.inp, m.out⟩
    | .Inc v off mp =>
        let p := offset_index m.st.pos off
        run f ns ⟨⟨if mp then p else m.st.pos,
          upd m.st.cells p (u8add (m.st.cells p) v)⟩, m.inp, m.out⟩
    | .Dec v off mp =>
        let p := offset_index m.st.pos off
        run f ns ⟨⟨if mp then p else m.st.pos,
          upd m.st.cells p (u8sub (m.st.cells p) v)⟩, m.inp, m.out⟩
    | .Mul factor into off mp =>
        let p := offset_index m.st.pos off
        let ip := offset_index p into
        let v := m.st.cells p
        let w := if 0 ≤ factor
          then u8add (m.st.cells ip) (u8mul v factor.natAbs)
          else u8sub (m.st.cells ip) (u8mul v factor.natAbs)
        run f ns ⟨⟨if mp then p else m.st.pos, upd m.st.cells ip w⟩, m.inp, m.out⟩
    | .Assign v off mp =>
        let p := offset_index m.st.pos off
        run f ns ⟨⟨if mp then p else m.st.pos, upd m.st.cells p (v % 256)⟩, m.inp, m.out⟩
    | .Scan i =>
        if m.st.cells m.st.pos = 0 then run f ns m
        else run f (.Scan i :: ns) ⟨⟨offset_index m.st.pos i, m.st.cells⟩, m.inp, m.out⟩
    | .Out off mp =>
        let p := offset_index m.st.pos off
        run f ns ⟨⟨if mp then p else m.st.pos, m.st.cells⟩, m.inp, m.out ++ [m.st.cells p]⟩
    | .In off mp =>
        match m.inp with
        | [] => .err .ReadError
        | b :: rest =>
          let p := offset_index m.st.pos off
          run f ns ⟨⟨if mp then p else m.st.pos, upd m.st.cells p (b % 256)⟩, rest, m.out⟩
    | .Conditional body =>
        if m.st.cells m.st.pos = 0 then run f ns m
        else
          match run f body m with
          | .ok m' => run f (.Conditional body :: ns) m'
          | r => r
    | .Comment _ => run f ns m

/-- Final pointer of a completed execution. -/
def resPos : RunRes → Option Nat
  | .ok m => some m.st.pos
  | _ => none

/-- A single final cell of a completed execution. -/
def resCell (r : RunRes) (i : Nat) : Option Nat :=
  match r with
  | .ok m => some (m.st.cells i)
  | _ => none

/-- Final output of a completed execution. -/
def resOut : RunRes → Option (List Nat)
  | .ok m => some m.out
  | _ => none

/-- The all-zero machine of State::default() with a given input. -/
def mach0 (inp : List Nat) : Mach := ⟨⟨0, fun _ => 0⟩, inp, []⟩

/-- The equality test against Dec(1, 0, false) used by the contains_iterator
check of is_collapsible_loop (x == Node::Dec(1, 0, false) in the source). -/
def isDecOne : Node → Bool
  | .Dec v o c => v == 1 && o == 0 && c == false
  | _ => false

/- The FilterComments pass (optimizer.rs): drops Comment nodes and recurses
into Conditional bodies. filterCommentsN is the per-node flat_map closure. -/
mutual
def filterComments : List Node → List Node
  | [] => []
  | n :: rest => filterCommentsN n ++ filterComments rest
def filterCommentsN : Node → List Node
  | .Comment _ => []
  | .Conditional body => [.Conditional (filterComments body)]
  | n => [n]
end

/-- i32 range check used by MergeRepeatedOperators and DeferMovements. -/
def inI32 (z : Int) : Bool := -2147483648 ≤ z && z ≤ 2147483647

/-- The merge candidate step of MergeRepeatedOperators: given the last
accumulated node and the next node, the merged node if Rust's match produces
Some. Shift/Shift merges are guarded by the i32 range of the sum; Inc/Inc
and Dec/Dec merges require commit = false on both sides and are rejected
when the u16 sum of the u8 amounts exceeds 255 or the offsets differ. -/
def mergeStep : Node → Node → Option Node
  | .Shift x, .Shift y => if inI32 (x + y) then some (.Shift (x + y)) else none
  | .Inc x o1 false, .Inc y o2 false =>
      if x + y > 255 || o1 != o2 then none else some (.Inc (x + y) o1 false)
  | .Dec x o1 false, .Dec y o2 false =>
      if x + y > 255 || o1 != o2 then none else some (.Dec (x + y) o1 false)
  | _, _ => none

/- The MergeRepeatedOperators pass. The Rust implementation folds with an
accumulator, popping the last pushed node and trying mergeStep against the
incoming node; a successful merge replaces the popped node (and stays
available for further merges), a failed merge freezes the popped node.
mergeAux carries the popped candidate explicitly; mergeNode is the push-time
handling (recursion into Conditional bodies, which mergeStep never matches). -/
mutual
def mergeRepeatedOperators : List Node → List Node
  | [] => []
  | n :: rest => mergeAux (mergeNode n) rest
def mergeNode : Node → Node
  | .Conditional body => .Conditional (mergeRepeatedOperators body)
  | n => n
def mergeAux : Node → List Node → List Node
  | cand, [] => [cand]
  | cand, n :: rest =>
    match mergeStep cand n with
    | some m => mergeAux m rest
    | none => cand :: mergeAux (mergeNode n) rest
end

/-- The merge step of the fold phase of CollapseAssignments: an
Assign(0, offset, false) followed by an Inc/Dec with commit = false at the
same offset folds into a single Assign. -/
def caStep : Node → Node → Option Node
  | .Assign 0 o1 false, .Inc v o2 false =>
      if o1 == o2 then some (.Assign v o1 false) else none
  | .Assign 0 o1 false, .Dec v o2 false =>
      if o1 == o2 then some (.Assign (u8sub 0 v) o1 false) else none
  | _, _ => none

/-- The fold phase of CollapseAssignments with the popped candidate carried
explicitly (same accumulator discipline as mergeAux; no recursion into
bodies happens in this phase). -/
def caFoldAux : Node → List Node → List Node
  | cand, [] => [cand]
  | cand, n :: rest =>
    match caStep cand n with
    | some v => caFoldAux v rest
    | none => cand :: caFoldAux n rest

def caFold : List Node → List Node
  | [] => []
  | n :: rest => caFoldAux n rest

/- The map phase of CollapseAssignments: a Conditional whose body is exactly
[Dec(1, 0, false)] becomes Assign(0, 0, false); other Conditionals recurse
through the whole pass. -/
mutual
def caMap : List Node → List Node
  | [] => []
  | n :: rest => caMapN n :: caMap rest
def caMapN : Node → Node
  | .Conditional [.Dec 1 0 false] => .Assign 0 0 false
  | .Conditional body => .Conditional (caFold (caMap body))
  | n => n
end

/-- The CollapseAssignments pass: map phase then fold phase. -/
def collapseAssignments (code : List Node) : List Node := caFold (caMap code)

/-- The merge step of CollapseOffsets: given the last accumulated node and
the (already recursed) incoming node, Rust's Option of replacement nodes,
split as (nodes frozen before the new candidate, new candidate).
First arm: a Shift followed by a zero-offset non-committing
Inc/Dec/Assign/Out/In absorbs the shift as offset with commit = true.
Second arm: a committing instruction followed by a Shift of opposite sign
is reduced by diff = offset.abs - shift.abs. -/
def coStep : Node → Node → Option (List Node × Node)
  | .Shift offset, n =>
    match n with
    | .Inc v 0 false => some ([], .Inc v offset true)
    | .Dec v 0 false => some ([], .Dec v offset true)
    | .Assign v 0 false => some ([], .Assign v offset true)
    | .Out 0 false => some ([], .Out offset true)
    | .In 0 false => some ([], .In offset true)
    | _ => none
  | old, .Shift s =>
    match old with
    | .Inc v o true =>
      if o.sign ≠ s.sign then
        let diff := o.natAbs - (s.natAbs : Int)
        if diff = 0 then some ([], .Inc v o false)
        else if 0 < diff then some ([.Shift (o.sign * diff)], .Inc v (o - o.sign * diff) false)
        else some ([.Inc v o false], .Shift (o.sign * diff))
      else none
    | .Dec v o true =>
      if o.sign ≠ s.sign then
        let diff := o.natAbs - (s.natAbs : Int)
        if diff = 0 then some ([], .Dec v o false)
        else if 0 < diff then some ([.Shift (o.sign * diff)], .Dec v (o - o.sign * diff) false)
        else some ([.Dec v o false], .Shift (o.sign * diff))
      else none
    | .Assign v o true =>
      if o.sign ≠ s.sign then
        let diff := o.natAbs - (s.natAbs : Int)
        if diff = 0 then some ([], .Assign v o false)
        else if 0 < diff then some ([.Shift (o.sign * diff)], .Assign v (o - o.sign * diff) false)
        else some ([.Assign v o false], .Shift (o.sign * diff))
      else none
    | .In o true =>
      if o.sign ≠ s.sign then
        let diff := o.natAbs - (s.natAbs : Int)
        if diff = 0 then some ([], .In o false)
        else if 0 < diff then some ([.Shift (o.sign * diff)], .In (o - o.sign * diff) false)
        else some ([.In o false], .Shift (o.sign * diff))
      else none
    | .Out o true =>
      if o.sign ≠ s.sign then
        let diff := o.natAbs - (s.natAbs : Int)
        if diff = 0 then some ([], .Out o false)
        else if 0 < diff then some ([.Shift (o.sign * diff)], .Out (o - o.sign * diff) false)
        else some ([.Out o false], .Shift (o.sign * diff))
      else none
    | _ => none
  | _, _ => none

/- The CollapseOffsets pass, with the popped candidate carried explicitly;
coHandle is the push-time conditional recursion (computed before coStep is
tried, exactly as the Rust code computes new_node before matching). -/
mutual
def collapseOffsets : List Node → List Node
  | [] => []
  | n :: rest => coAux (coHandle n) rest
def coHandle : Node → Node
  | .Conditional body => .Conditional (collapseOffsets body)
  | n => n
def coAux : Node → List Node → List Node
  | cand, [] => [cand]
  | cand, n :: rest =>
    match coStep cand (coHandle n) with
    | some (pre, c') => pre ++ coAux c' rest
    | none => cand :: coAux (coHandle n) rest
end

/-- Group processing of DeferMovements: a straight-line run is rewritten with
a running carry offset; Shift folds into the carry (guarded by the i32 range
of the sum), other instructions get offset += carry and commit forced false,
a committing instruction additionally absorbs its offset into the carry, and
a non-zero final carry is emitted as one trailing Shift. Comments are
dropped; Conditional and Scan never appear inside a processed group. -/
def dmProcess : List Node → Int → List Node
  | [], c => if c ≠ 0 then [.Shift c] else []
  | n :: rest, c =>
    match n with
    | .Shift v => if inI32 (c + v) then dmProcess rest (c + v)
                  else .Shift c :: dmProcess rest v
    | .Inc v o mp => .Inc v (c + o) false :: dmProcess rest (if mp then c + o else c)
    | .Dec v o mp => .Dec v (c + o) false :: dmProcess rest (if mp then c + o else c)
    | .Assign v o mp => .Assign v (c + o) false :: dmProcess rest (if mp then c + o else c)
    | .Mul v into o mp => .Mul v into (c + o) false :: dmProcess rest (if mp then c + o else c)
    | .In o mp => .In (c + o) false :: dmProcess rest (if mp then c + o else c)
    | .Out o mp => .Out (c + o) false :: dmProcess rest (if mp then c + o else c)
    | .Comment _ => dmProcess rest c
    | .Conditional _ => dmProcess rest c
    | .Scan _ => dmProcess rest c

/-- Emission of one group of DeferMovements: groups of exactly one node are
pushed as-is, every other group is processed with carry 0. -/
def dmEmit (g : List Node) : List Node :=
  if g.length = 1 then g else dmProcess g 0

/- The DeferMovements pass: split the sequence into maximal straight-line
groups (each Conditional or Scan is its own singleton group, the Conditional
recursed), then emit each group through dmEmit. dmGo carries the current
straight-line group. -/
mutual
def dmGo : List Node → List Node → List Node
  | [], cur => dmEmit cur
  | n :: rest, cur =>
    match n with
    | .Scan i => dmEmit cur ++ (.Scan i :: dmGo rest [])
    | .Conditional _ => dmEmit cur ++ (dmN n :: dmGo rest [])
    | _ => dmGo rest (cur ++ [n])
def dmN : Node → Node
  | .Conditional body => .Conditional (dmGo body [])
  | n => n
end

def deferMovements (code : List Node) : List Node := dmGo code []

/-- is_collapsible_loop of CollapseSimpleLoops: body non-empty, only
Inc/Dec nodes with commit = false (a left fold whose memo is cleared by any
other node), and at least one Dec(1, 0, false). -/
def is_collapsible_loop (body : List Node) : Bool :=
  let has_only_allowed_elements := body.foldl
    (fun memo n =>
      match n with
      | .Inc _ _ false => memo
      | .Dec _ _ false => memo
      | _ => false) true
  let contains_iterator := body.any isDecOne
  !body.isEmpty && has_only_allowed_elements && contains_iterator

/-- The flat_map closure of CollapseSimpleLoops: every Dec(1, 0, false) is
dropped, every other Inc/Dec becomes a Mul with factor +amount / -amount. -/
def cslMul : Node → Option Node
  | .Dec 1 0 false => none
  | .Inc v o false => some (.Mul v o 0 false)
  | .Dec v o false => some (.Mul (-(v : Int)) o 0 false)
  | _ => none

/- The CollapseSimpleLoops pass: a collapsible Conditional becomes the Mul
sequence of its surviving body nodes followed by Assign(0, 0, false); other
Conditionals recurse. -/
mutual
def collapseSimpleLoops : List Node → List Node
  | [] => []
  | n :: rest => cslN n ++ collapseSimpleLoops rest
def cslN : Node → List Node
  | .Conditional body =>
    if is_collapsible_loop body then body.filterMap cslMul ++ [.Assign 0 0 false]
    else [.Conditional (collapseSimpleLoops body)]
  | n => [n]
end

/- The CollapseScanLoops pass: a Conditional whose body is exactly one
Shift(i) becomes Scan(i); other Conditionals recurse. -/
mutual
def collapseScanLoops : List Node → List Node
  | [] => []
  | n :: rest => scanN n :: collapseScanLoops rest
def scanN : Node → Node
  | .Conditional [.Shift i] => .Scan i
  | .Conditional body => .Conditional (collapseScanLoops body)
  | n => n
end

/-- OptimizationOptions from optimizer.rs. -/
structure OptimizationOptions where
  collapsed_operators : Bool
  collapsed_assignments : Bool
  collapsed_offsets : Bool
  collapsed_loops : Bool
  collapsed_scan_loops : Bool

/-- Default::default() for OptimizationOptions: everything enabled. -/
def OptimizationOptions.default : OptimizationOptions := ⟨true, true, true, true, true⟩

/-- optimize_code from optimizer.rs: the ordered pass pipeline, assembled
from the options exactly as the Rust code pushes the boxed steps, then
applied left to right. -/
def optimize_code (code : List Node) (options : OptimizationOptions) : List Node :=
  let passes : List (List Node → List Node) :=
    [filterComments]
    ++ (if options.collapsed_operators then [mergeRepeatedOperators] else [])
    ++ (if options.collapsed_assignments then [collapseAssignments] else [])
    ++ (if options.collapsed_offsets then [collapseOffsets] else [])
    ++ (if options.collapsed_loops then
          [deferMovements, collapseSimpleLoops]
          ++ (if options.collapsed_offsets then [collapseOffsets] else [])
          ++ [deferMovements]
        else [])
    ++ (if options.collapsed_scan_loops then [collapseScanLoops] else [])
  passes.foldl (fun c p => p c) code

/-- ParserError from parser.rs (the Io payload string is elided). -/
inductive ParserError where
  | UnmatchedDelimiter
  | MissingDelimiter
  | Io
  | Internal
  deriving DecidableEq

/-- From for Node in parser.rs: the non-bracket characters
(brackets are consumed by parse_code before this conversion is reached). -/
def nodeFromChar (c : Char) : Node :=
  if c = '>' then .Shift 1
  else if c = '<' then .Shift (-1)
  else if c = '+' then .Inc 1 0 false
  else if c = '-' then .Dec 1 0 false
  else if c = '.' then .Out 0 false
  else if c = ',' then .In 0 false
  else .Comment c

/-- The loop of parse_code: nested is the stack of pending body sequences
with the top at the head (the Rust Vec keeps the top at the end); an opening
bracket pushes a fresh body, a closing bracket with fewer than two stack
levels is an UnmatchedDelimiter, otherwise the popped body is appended to
the new top as a Conditional, and any other character is appended to the
top through nodeFromChar. -/
def parseLoop : List Char → List (List Node) → Except ParserError (List (List Node))
  | [], st => .ok st
  | c :: rest, st =>
    if c = '[' then parseLoop rest ([] :: st)
    else if c = ']' then
      match st with
      | body :: outer :: t => parseLoop rest ((outer ++ [.Conditional body]) :: t)
      | _ => .error .UnmatchedDelimiter
    else
      match st with
      | h :: t => parseLoop rest ((h ++ [nodeFromChar c]) :: t)
      | [] => .error .Internal

/-- parse_code from parser.rs: run the loop on a stack holding one empty
sequence; more than one level left at the end is a MissingDelimiter,
exactly one level is the parsed program. -/
def parse_code (cs : List Char) : Except ParserError (List Node) :=
  match parseLoop cs [[]] with
  | .error e => .error e
  | .ok st =>
    if st.length > 1 then .error .MissingDelimiter
    else
      match st with
      | [res] => .ok res
      | _ => .error .Internal

/-- Spec-side characterization of bracket matching (from the spec text of
the Bracket Parser contract): scan the text keeping the count of open
brackets still pending; none means some closing bracket was met with no
open bracket pending, some d means the scan ends with d opens pending. -/
def scanDepth : List Char → Nat → Option Nat
  | [], d => some d
  | c :: cs, d =>
    if c = '[' then scanDepth cs (d + 1)
    else if c = ']' then
      match d with
      | 0 => none
      | e + 1 => scanDepth cs e
    else scanDepth cs d

/- The tree parsed from the program text [->+<-] and the machine that starts
with cell0 = 4 and everything else zero: the counterexample input of the
semantic-equivalence claim about optimize_code. -/

def c1tree : Node :=
  .Conditional [.Dec 1 0 false, .Shift 1, .Inc 1 0 false, .Shift (-1), .Dec 1 0 false]

def c1mach : Mach := ⟨⟨0, upd (fun _ => 0) 0 4⟩, [], []⟩

/-- C1. The spec claims that running optimize_code(P, default) from any state
gives the same final tape, pointer and output as the comment-stripped tree of
P. The code violates this: for the parsed tree of the program [->+<-]
(a loop that decrements the counter twice per iteration), starting from
cell0 = 4, the stripped tree terminates with cell1 = 2, while the optimized
tree [Mul(1, 1, 0, false), Assign(0, 0, false)] terminates with cell1 = 4;
CollapseSimpleLoops drops both Dec(1, 0, false) nodes of the body and so
halves the iteration count. Both runs are fully evaluated here. -/
theorem C1_optimizer_changes_semantics :
    parse_code "[->+<-]".toList = .ok [c1tree] ∧
    filterComments [c1tree] = [c1tree] ∧
    optimize_code [c1tree] .default = [.Mul 1 1 0 false, .Assign 0 0 false] ∧
    resCell (run 60 (filterComments [c1tree]) c1mach) 1 = some 2 ∧
    resCell (run 60 (optimize_code [c1tree] .default) c1mach) 1 = some 4 ∧
    resCell (run 60 (filterComments [c1tree]) c1mach) 0 = some 0 ∧
    resCell (run 60 (optimize_code [c1tree] .default) c1mach) 0 = some 0 ∧
    resPos (run 60 (filterComments [c1tree]) c1mach) = some 0 ∧
    resPos (run 60 (optimize_code [c1tree] .default) c1mach) = some 0 ∧
    resOut (run 60 (filterComments [c1tree]) c1mach) = some [] ∧
    resOut (run 60 (optimize_code [c1tree] .default) c1mach) = some [] ∧
    resCell (run 60 (filterComments [c1tree]) c1mach) 1
      ≠ resCell (run 60 (optimize_code [c1tree] .default) c1mach) 1 := by
  refine ⟨rfl, rfl, rfl, rfl, rfl, rfl, rfl, rfl, rfl, rfl, rfl, ?_⟩
  intro h
  rw [show resCell (run 60 (filterComments [c1tree]) c1mach) 1 = some 2 from rfl,
    show resCell (run 60 (optimize_code [c1tree] .default) c1mach) 1 = some 4 from rfl] at h
  simp at h

/-- C2. The spec claims every effective address is (pointer + offset) mod
tapeSize with tapeSize the number of cells, and that three Shift(1) from the
last cell leave the pointer at 2. In the code the tape has
NUMBER_OF_CELLS = u16::max_value() = 65535 cells (indices 0..65534), while
offset_index wraps modulo 65536: from the last cell (65534) the program
">>>" leaves the pointer at 1, not 2, and the single-step address from the
last cell differs from the mod-tapeSize address. The repo's own test
it_should_overflow_the_data_pointer expects 2, so the code contradicts its
own tests (the cell count is off by one from the intended 65536). -/
theorem C2_addressing_is_mod_65536_not_tape_size :
    NUMBER_OF_CELLS = 65535 ∧
    parse_code ">>>".toList = .ok [.Shift 1, .Shift 1, .Shift 1] ∧
    offset_index (NUMBER_OF_CELLS - 1) 1 = 65535 ∧
    (NUMBER_OF_CELLS - 1 + 1) % NUMBER_OF_CELLS = 0 ∧
    offset_index (NUMBER_OF_CELLS - 1) 1 ≠ (NUMBER_OF_CELLS - 1 + 1) % NUMBER_OF_CELLS ∧
    resPos (run 10 [.Shift 1, .Shift 1, .Shift 1] ⟨⟨NUMBER_OF_CELLS - 1, fun _ => 0⟩, [], []⟩)
      = some 1 ∧
    resPos (run 10 [.Shift 1, .Shift 1, .Shift 1] ⟨⟨NUMBER_OF_CELLS - 1, fun _ => 0⟩, [], []⟩)
      ≠ some 2 := by
  refine ⟨rfl, rfl, rfl, rfl, ?_, rfl, ?_⟩
  · rw [show offset_index (NUMBER_OF_CELLS - 1) 1 = 65535 from rfl,
      show (NUMBER_OF_CELLS - 1 + 1) % NUMBER_OF_CELLS = 0 from rfl]
    simp
  · rw [show resPos (run 10 [.Shift 1, .Shift 1, .Shift 1]
      ⟨⟨NUMBER_OF_CELLS - 1, fun _ => 0⟩, [], []⟩) = some 1 from rfl]
    simp

/-- C3. The claim says every tape index the interpreter touches from a valid
pointer stays strictly below the number of cells. offset_index only bounds
its result by 65536, and the bound NUMBER_OF_CELLS = 65535 is actually
reached: from the valid pointer 65534 (the last cell), Inc(1, 1, false)
addresses index 65535 = NUMBER_OF_CELLS, one past the end of the cells
array — in Rust an out-of-bounds panic. The repo's own test
it_should_increment_cells_at_overflowing_offset runs exactly this access and
expects a wrap to index 0, so the code contradicts its own tests. -/
theorem C3_cell_access_can_exceed_bounds :
    (∀ (pos : Nat) (off : Int), offset_index pos off < 65536) ∧
    NUMBER_OF_CELLS - 1 < NUMBER_OF_CELLS ∧
    offset_index (NUMBER_OF_CELLS - 1) 1 = NUMBER_OF_CELLS ∧
    ¬ offset_index (NUMBER_OF_CELLS - 1) 1 < NUMBER_OF_CELLS := by
  refine ⟨?_, by decide, rfl, by decide⟩
  intro pos off
  unfold offset_index
  have h1 : 0 ≤ ((pos : Int) + off) % 65536 := Int.emod_nonneg _ (by norm_num)
  have h2 : ((pos : Int) + off) % 65536 < 65536 := Int.emod_lt_of_pos _ (by norm_num)
  omega

/-- C10. The spec claims the full default pipeline is idempotent. It is not:
for T = [Inc(1, 1, true), Inc(1, 0, false)], DeferMovements rewrites both
nodes to offset 1 with commit = false, producing two adjacent equal Inc
nodes after the merge pass has already run; a second application of the
pipeline merges them, so optimize_code(optimize_code(T)) has two nodes where
optimize_code(T) has three. -/
theorem C10_pipeline_not_idempotent :
    optimize_code [.Inc 1 1 true, .Inc 1 0 false] .default
      = [.Inc 1 1 false, .Inc 1 1 false, .Shift 1] ∧
    optimize_code (optimize_code [.Inc 1 1 true, .Inc 1 0 false] .default) .default
      = [.Inc 2 1 false, .Shift 1] ∧
    optimize_code (optimize_code [.Inc 1 1 true, .Inc 1 0 false] .default) .default
      ≠ optimize_code [.Inc 1 1 true, .Inc 1 0 false] .default := by
  refine ⟨rfl, rfl, ?_⟩
  intro h
  rw [show optimize_code (optimize_code [.Inc 1 1 true, .Inc 1 0 false] .default) .default
      = [.Inc 2 1 false, .Shift 1] from rfl,
    show optimize_code [.Inc 1 1 true, .Inc 1 0 false] .default
      = [.Inc 1 1 false, .Inc 1 1 false, .Shift 1] from rfl] at h
  have := congrArg List.length h
  simp at this

theorem inI32_true_iff (z : Int) :
    inI32 z = true ↔ (-2147483648 ≤ z ∧ z ≤ 2147483647) := by
  simp [inI32]

/-- C6. The MergeRepeatedOperators pass folds adjacent Shift pairs by
summing deltas unless the sum leaves the i32 range (then both are emitted
unmerged), and folds adjacent Inc/Inc and Dec/Dec pairs with commit = false,
summing amounts, rejecting the merge exactly when the sum exceeds 255 or the
offsets differ. Stated on the fold worker mergeAux (whose first argument is
the last accumulated node, so the statement covers an adjacent pair anywhere
in a sequence) and, for shifts, also at the head of the pass itself. -/
theorem C6_merge_repeated_operators :
    ∀ (x y : Int) (a b : Nat) (o1 o2 : Int) (rest : List Node),
    (mergeAux (.Shift x) (.Shift y :: rest)
       = if -2147483648 ≤ x + y ∧ x + y ≤ 2147483647
         then mergeAux (.Shift (x + y)) rest
         else .Shift x :: mergeAux (.Shift y) rest) ∧
    (mergeRepeatedOperators (.Shift x :: .Shift y :: rest)
       = if -2147483648 ≤ x + y ∧ x + y ≤ 2147483647
         then mergeRepeatedOperators (.Shift (x + y) :: rest)
         else .Shift x :: mergeRepeatedOperators (.Shift y :: rest)) ∧
    (mergeAux (.Inc a o1 false) (.Inc b o2 false :: rest)
       = if a + b > 255 ∨ o1 ≠ o2
         then .Inc a o1 false :: mergeAux (.Inc b o2 false) rest
         else mergeAux (.Inc (a + b) o1 false) rest) ∧
    (mergeAux (.Dec a o1 false) (.Dec b o2 false :: rest)
       = if a + b > 255 ∨ o1 ≠ o2
         then .Dec a o1 false :: mergeAux (.Dec b o2 false) rest
         else mergeAux (.Dec (a + b) o1 false) rest) := by
  intro x y a b o1 o2 rest
  have hshift : mergeAux (.Shift x) (.Shift y :: rest)
      = if -2147483648 ≤ x + y ∧ x + y ≤ 2147483647
        then mergeAux (.Shift (x + y)) rest
        else .Shift x :: mergeAux (.Shift y) rest := by
    by_cases h : -2147483648 ≤ x + y ∧ x + y ≤ 2147483647
    · have hb : inI32 (x + y) = true := (inI32_true_iff _).mpr h
      simp [mergeAux, mergeStep, hb, h]
    · have hb : inI32 (x + y) = false := by
        rcases Bool.eq_false_or_eq_true (inI32 (x + y)) with ht | hf
        · exact absurd ((inI32_true_iff _).mp ht) h
        · exact hf
      simp [mergeAux, mergeStep, mergeNode, hb, h]
  refine ⟨hshift, ?_, ?_, ?_⟩
  · show mergeAux (mergeNode (.Shift x)) (.Shift y :: rest) = _
    rw [show mergeNode (.Shift x) = .Shift x from rfl, hshift]
    by_cases h : -2147483648 ≤ x + y ∧ x + y ≤ 2147483647
    · rw [if_pos h, if_pos h]
      rfl
    · rw [if_neg h, if_neg h]
      rfl
  · by_cases h : a + b > 255 ∨ o1 ≠ o2
    · have hb : (decide (a + b > 255) || (o1 != o2)) = true := by
        rcases h with h | h
        · simp [h]
        · simp [bne_iff_ne, h]
      simp [mergeAux, mergeStep, mergeNode, hb, h]
    · have hb : (decide (a + b > 255) || (o1 != o2)) = false := by
        push_neg at h
        simp [h.1, bne_iff_ne, h.2]
      simp only [not_or, not_not] at h
      simp [mergeAux, mergeStep, hb, if_neg, h]
  · by_cases h : a + b > 255 ∨ o1 ≠ o2
    · have hb : (decide (a + b > 255) || (o1 != o2)) = true := by
        rcases h with h | h
        · simp [h]
        · simp [bne_iff_ne, h]
      simp [mergeAux, mergeStep, mergeNode, hb, h]
    · have hb : (decide (a + b > 255) || (o1 != o2)) = false := by
        push_neg at h
        simp [h.1, bne_iff_ne, h.2]
      simp only [not_or, not_not] at h
      simp [mergeAux, mergeStep, hb, if_neg, h]

/-- C7. The CollapseAssignments pass rewrites a Conditional whose body is
exactly [Dec(1, 0, false)] to Assign(0, 0, false) in its map phase, and its
fold phase replaces Assign(0, offset, false) immediately followed by an
Inc/Dec with commit = false at the same offset by a single Assign carrying
the increment amount (for Dec: 0 minus the amount, mod 256, which is
u8sub 0 v); offsets that differ block the fold. The program [-] optimizes to
[Assign(0, 0, false)] under the default pipeline. -/
theorem C7_collapse_assignments :
    (∀ rest : List Node,
      caMap (.Conditional [.Dec 1 0 false] :: rest) = .Assign 0 0 false :: caMap rest) ∧
    (∀ (v : Nat) (o1 o2 : Int) (rest : List Node),
      caFoldAux (.Assign 0 o1 false) (.Inc v o2 false :: rest)
        = if o1 = o2 then caFoldAux (.Assign v o1 false) rest
          else .Assign 0 o1 false :: caFoldAux (.Inc v o2 false) rest) ∧
    (∀ (v : Nat) (o1 o2 : Int) (rest : List Node),
      caFoldAux (.Assign 0 o1 false) (.Dec v o2 false :: rest)
        = if o1 = o2 then caFoldAux (.Assign (u8sub 0 v) o1 false) rest
          else .Assign 0 o1 false :: caFoldAux (.Dec v o2 false) rest) ∧
    parse_code "[-]".toList = .ok [.Conditional [.Dec 1 0 false]] ∧
    optimize_code [.Conditional [.Dec 1 0 false]] .default = [.Assign 0 0 false] := by
  refine ⟨fun rest => rfl, ?_, ?_, rfl, rfl⟩
  · intro v o1 o2 rest
    by_cases h : o1 = o2
    · have hb : (o1 == o2) = true := by simp [h]
      simp [caFoldAux, caStep, hb, h]
    · have hb : (o1 == o2) = false := by simp [h]
      simp [caFoldAux, caStep, hb, h]
  · intro v o1 o2 rest
    by_cases h : o1 = o2
    · have hb : (o1 == o2) = true := by simp [h]
      simp [caFoldAux, caStep, hb, h]
    · have hb : (o1 == o2) = false := by simp [h]
      simp [caFoldAux, caStep, hb, h]

/-- The node predicate of is_collapsible_loop: an Inc or Dec with commit
false. -/
def commitFreeIncDec : Node → Bool
  | .Inc _ _ false => true
  | .Dec _ _ false => true
  | _ => false

theorem is_collapsible_fold_step (b : Bool) (n : Node) :
    (match n with
      | Node.Inc _ _ false => b
      | Node.Dec _ _ false => b
      | _ => false) = (b && commitFreeIncDec n) := by
  cases n with
  | Inc v o c => cases c <;> simp [commitFreeIncDec]
  | Dec v o c => cases c <;> simp [commitFreeIncDec]
  | _ => simp [commitFreeIncDec]

theorem is_collapsible_fold (l : List Node) : ∀ b : Bool,
    l.foldl (fun (memo : Bool) (n : Node) =>
      match n with
      | .Inc _ _ false => memo
      | .Dec _ _ false => memo
      | _ => false) b = (b && l.all commitFreeIncDec) := by
  induction l with
  | nil => intro b; simp
  | cons n t ih =>
    intro b
    rw [List.foldl_cons]
    rw [show (match n with
      | Node.Inc _ _ false => b
      | Node.Dec _ _ false => b
      | _ => false) = (b && commitFreeIncDec n) from is_collapsible_fold_step b n]
    rw [ih, List.all_cons, Bool.and_assoc]

theorem isDecOne_true_iff (n : Node) : isDecOne n = true ↔ n = .Dec 1 0 false := by
  cases n with
  | Dec v o c => simp [isDecOne, and_assoc]
  | _ => simp [isDecOne]

theorem is_collapsible_of (body : List Node) (h0 : body ≠ [])
    (h1 : ∀ n ∈ body, commitFreeIncDec n = true)
    (h2 : (Node.Dec 1 0 false) ∈ body) : is_collapsible_loop body = true := by
  unfold is_collapsible_loop
  rw [is_collapsible_fold]
  simp only [Bool.true_and, Bool.and_eq_true, Bool.not_eq_eq_eq_not, Bool.not_false]
  refine ⟨⟨by simpa using h0, List.all_eq_true.mpr h1⟩, ?_⟩
  exact List.any_eq_true.mpr ⟨_, h2, (isDecOne_true_iff _).mpr rfl⟩

def c4tree : Node :=
  .Conditional [.Shift 1, .Shift 1, .Inc 1 0 false, .Inc 1 0 false, .Inc 1 0 false,
    .Shift (-1), .Shift (-1), .Dec 1 0 false]

def c4mach : Mach := ⟨⟨0, upd (fun _ => 0) 0 5⟩, [], []⟩

theorem C4_collapse_simple_loops :
    (∀ (body rest : List Node), body ≠ [] →
      (∀ n ∈ body, commitFreeIncDec n = true) → (Node.Dec 1 0 false) ∈ body →
      collapseSimpleLoops (.Conditional body :: rest)
        = body.filterMap cslMul ++ .Assign 0 0 false :: collapseSimpleLoops rest) ∧
    cslMul (.Dec 1 0 false) = none ∧
    (∀ (v : Nat) (o : Int), cslMul (.Inc v o false) = some (.Mul (v : Int) o 0 false)) ∧
    cslMul (.Dec 2 5 false) = some (.Mul (-2) 5 0 false) ∧
    parse_code "[>>+++<<-]".toList = .ok [c4tree] ∧
    optimize_code [c4tree] .default = [.Mul 3 2 0 false, .Assign 0 0 false] ∧
    resCell (run 10 (optimize_code [c4tree] .default) c4mach) 0 = some 0 ∧
    resCell (run 10 (optimize_code [c4tree] .default) c4mach) 2 = some 15 ∧
    resPos (run 10 (optimize_code [c4tree] .default) c4mach) = some 0 := by
  refine ⟨?_, rfl, fun v o => rfl, rfl, rfl, rfl, rfl, rfl, rfl⟩
  intro body rest h0 h1 h2
  have hc := is_collapsible_of body h0 h1 h2
  simp [collapseSimpleLoops, cslN, hc]

theorem C4_collapse_simple_loops_witness :
    collapseSimpleLoops [.Conditional [.Inc 3 2 false, .Dec 1 0 false]]
      = [.Mul 3 2 0 false, .Assign 0 0 false] := by
  have h := C4_collapse_simple_loops.1 [.Inc 3 2 false, .Dec 1 0 false] []
    (by simp) (by decide) (by simp)
  simpa using h

theorem run_append_err : ∀ (f : Nat) (ns ns' : List Node) (m : Mach) (e : RuntimeError),
    run f ns m = .err e → run f (ns ++ ns') m = .err e := by
  intro f
  induction f with
  | zero =>
    intro ns ns' m e h
    cases ns with
    | nil => simp [run] at h
    | cons n t => simp [run] at h
  | succ f ih =>
    intro ns ns' m e h
    cases ns with
    | nil => simp [run] at h
    | cons n t =>
      rw [List.cons_append]
      cases n with
      | Conditional body =>
        simp only [run] at h ⊢
        by_cases h0 : m.st.cells m.st.pos = 0
        · rw [if_pos h0] at h ⊢
          exact ih _ _ _ _ h
        · rw [if_neg h0] at h ⊢
          cases hb : run f body m with
          | ok m' =>
            rw [hb] at h
            have := ih (Node.Conditional body :: t) ns' m' e h
            rw [List.cons_append] at this
            exact this
          | err e' =>
            rw [hb] at h
            exact h
          | div =>
            rw [hb] at h
            have h2 : RunRes.div = RunRes.err e := h
            exact RunRes.noConfusion h2
      | In off mp =>
        simp only [run] at h ⊢
        cases hi : m.inp with
        | nil =>
          rw [hi] at h
          exact h
        | cons b rest =>
          rw [hi] at h
          exact ih _ _ _ _ h
      | Scan i =>
        simp only [run] at h ⊢
        by_cases h0 : m.st.cells m.st.pos = 0
        · rw [if_pos h0] at h ⊢
          exact ih _ _ _ _ h
        · rw [if_neg h0] at h ⊢
          have := ih (Node.Scan i :: t) ns'
            ⟨⟨offset_index m.st.pos i, m.st.cells⟩, m.inp, m.out⟩ e h
          rw [List.cons_append] at this
          exact this
      | Shift i =>
        simp only [run] at h ⊢
        exact ih _ _ _ _ h
      | Inc v off mp =>
        simp only [run] at h ⊢
        exact ih _ _ _ _ h
      | Dec v off mp =>
        simp only [run] at h ⊢
        exact ih _ _ _ _ h
      | Mul fa into off mp =>
        simp only [run] at h ⊢
        exact ih _ _ _ _ h
      | Assign v off mp =>
        simp only [run] at h ⊢
        exact ih _ _ _ _ h
      | Out off mp =>
        simp only [run] at h ⊢
        exact ih _ _ _ _ h
      | Comment c =>
        simp only [run] at h ⊢
        exact ih _ _ _ _ h

/-- C9. Executing In with an exhausted input source yields ReadError (never a
zero byte), and the first RuntimeError produced inside an instruction
sequence aborts the remaining instructions of the sequence and is propagated
unchanged: when a prefix of a block fails with e, the whole block fails with
the same e. -/
theorem C9_runtime_error_semantics :
    (∀ (f : Nat) (off : Int) (mp : Bool) (ns : List Node) (m : Mach),
      m.inp = [] → run (f + 1) (.In off mp :: ns) m = .err .ReadError) ∧
    (∀ (f : Nat) (ns ns' : List Node) (m : Mach) (e : RuntimeError),
      run f ns m = .err e → run f (ns ++ ns') m = .err e) := by
  constructor
  · intro f off mp ns m h
    simp only [run, h]
  · exact run_append_err

theorem C9_runtime_error_semantics_witness :
    run 1 [.In 0 false] (mach0 []) = .err .ReadError ∧
    run 3 ([.In 0 false] ++ [.Shift 1, .Out 0 false]) (mach0 []) = .err .ReadError :=
  ⟨C9_runtime_error_semantics.1 0 0 false [] (mach0 []) rfl,
   C9_runtime_error_semantics.2 3 [.In 0 false] [.Shift 1, .Out 0 false] (mach0 []) .ReadError
     (C9_runtime_error_semantics.1 2 0 false [] (mach0 []) rfl)⟩

theorem scan_run_spec : ∀ (f : Nat) (i : Int) (m m' : Mach),
    run f [.Scan i] m = .ok m' →
    m'.st.cells = m.st.cells ∧ m'.inp = m.inp ∧ m'.out = m.out ∧
    m'.st.cells m'.st.pos = 0 ∧
    ∃ k : Nat, m'.st.pos = (fun p => offset_index p i)^[k] m.st.pos := by
  intro f
  induction f with
  | zero =>
    intro i m m' h
    simp [run] at h
  | succ f ih =>
    intro i m m' h
    simp only [run] at h
    by_cases h0 : m.st.cells m.st.pos = 0
    · rw [if_pos h0] at h
      have hm : m = m' := by
        have : RunRes.ok m = RunRes.ok m' := h
        cases this
        rfl
      subst hm
      exact ⟨rfl, rfl, rfl, h0, 0, rfl⟩
    · rw [if_neg h0] at h
      obtain ⟨hc, hi, ho, hz, k, hk⟩ :=
        ih i ⟨⟨offset_index m.st.pos i, m.st.cells⟩, m.inp, m.out⟩ m' h
      refine ⟨hc, hi, ho, hz, k + 1, ?_⟩
      rw [hk]
      simp [Function.iterate_succ_apply]

def c5mach : Mach := ⟨⟨0, upd (fun _ => 0) 0 1⟩, [], []⟩

def c5mach' : Mach := ⟨⟨2, upd (fun _ => 0) 0 1⟩, [], []⟩

/-- C5. The CollapseScanLoops pass replaces every Conditional whose body is
exactly one Shift(i) with Scan(i); executing Scan(i) repeatedly displaces
the pointer by i through offset_index (mod 2^16) until the cell under the
pointer is zero, and changes no cell, no input and no output. The program
[>>] optimizes to [Scan(2)] under the default pipeline, and executing
Scan(2) from cell0 = 1, cell2 = 0 moves the pointer from 0 to 2. -/
theorem C5_collapse_scan_loops :
    (∀ (i : Int) (rest : List Node),
      collapseScanLoops (.Conditional [.Shift i] :: rest)
        = .Scan i :: collapseScanLoops rest) ∧
    (∀ (f : Nat) (i : Int) (m m' : Mach),
      run f [.Scan i] m = .ok m' →
      m'.st.cells = m.st.cells ∧ m'.inp = m.inp ∧ m'.out = m.out ∧
      m'.st.cells m'.st.pos = 0 ∧
      ∃ k : Nat, m'.st.pos = (fun p => offset_index p i)^[k] m.st.pos) ∧
    parse_code "[>>]".toList = .ok [.Conditional [.Shift 1, .Shift 1]] ∧
    optimize_code [.Conditional [.Shift 1, .Shift 1]] .default = [.Scan 2] ∧
    run 5 [.Scan 2] c5mach = .ok c5mach' ∧
    resPos (run 5 [.Scan 2] c5mach) = some 2 :=
  ⟨fun _ _ => rfl, scan_run_spec, rfl, rfl, rfl, rfl⟩

theorem C5_collapse_scan_loops_witness :
    c5mach'.st.cells = c5mach.st.cells ∧ c5mach'.inp = c5mach.inp ∧
    c5mach'.out = c5mach.out ∧ c5mach'.st.cells c5mach'.st.pos = 0 ∧
    ∃ k : Nat, c5mach'.st.pos = (fun p => offset_index p 2)^[k] c5mach.st.pos :=
  C5_collapse_scan_loops.2.1 5 2 c5mach c5mach' rfl

theorem parseLoop_spec : ∀ (cs : List Char) (st : List (List Node)), st ≠ [] →
    (scanDepth cs (st.length - 1) = none →
      parseLoop cs st = .error .UnmatchedDelimiter) ∧
    (∀ d, scanDepth cs (st.length - 1) = some d →
      ∃ st', parseLoop cs st = .ok st' ∧ st'.length = d + 1) := by
  intro cs
  induction cs with
  | nil =>
    intro st hst
    constructor
    · intro h
      simp [scanDepth] at h
    · intro d h
      have h2 : st.length - 1 = d := by simpa [scanDepth] using h
      have hlen : st.length ≠ 0 := by
        intro h0
        exact hst (List.length_eq_zero.mp h0)
      exact ⟨st, rfl, by omega⟩
  | cons c rest ih =>
    intro st hst
    by_cases hbr : c = '['
    · subst hbr
      have hlen : st.length ≠ 0 := by simpa using hst
      have h1 : scanDepth ('[' :: rest) (st.length - 1) = scanDepth rest st.length := by
        show scanDepth rest (st.length - 1 + 1) = scanDepth rest st.length
        congr 1
        omega
      have h2 : parseLoop ('[' :: rest) st = parseLoop rest ([] :: st) := by
        simp [parseLoop]
      have h3 := ih ([] :: st) (by simp)
      rw [List.length_cons] at h3
      simp only [Nat.add_sub_cancel] at h3
      rw [h1, h2]
      exact h3
    · by_cases hbc : c = ']'
      · subst hbc
        cases st with
        | nil => exact absurd rfl hst
        | cons b t =>
          cases t with
          | nil =>
            constructor
            · intro _
              simp [parseLoop, hbr]
            · intro d h
              simp [scanDepth, hbr] at h
          | cons o t2 =>
            have h1 : scanDepth (']' :: rest) ((b :: o :: t2).length - 1)
                = scanDepth rest (t2.length + 1 - 1) := by
              simp [scanDepth, hbr]
            have h2 : parseLoop (']' :: rest) (b :: o :: t2)
                = parseLoop rest ((o ++ [.Conditional b]) :: t2) := by
              simp [parseLoop, hbr]
            have h3 := ih ((o ++ [.Conditional b]) :: t2) (by simp)
            rw [List.length_cons] at h3
            rw [h1, h2]
            simpa using h3
      · cases st with
        | nil => exact absurd rfl hst
        | cons hd t =>
          have h1 : scanDepth (c :: rest) ((hd :: t).length - 1)
              = scanDepth rest ((hd :: t).length - 1) := by
            simp [scanDepth, hbr, hbc]
          have h2 : parseLoop (c :: rest) (hd :: t)
              = parseLoop rest ((hd ++ [nodeFromChar c]) :: t) := by
            simp [parseLoop, hbr, hbc]
          have h3 := ih ((hd ++ [nodeFromChar c]) :: t) (by simp)
          rw [h1, h2]
          simpa using h3

/-- C8. parse_code returns UnmatchedDelimiter exactly when scanning the text
meets a closing bracket with no open bracket pending (scanDepth = none),
MissingDelimiter exactly when the text ends with open brackets pending
(scanDepth = some (d+1)), and otherwise an instruction tree
(scanDepth = some 0); the program text with an unclosed open bracket fails
with MissingDelimiter and the text with an extra closing bracket fails with
UnmatchedDelimiter. -/
theorem C8_parser_error_characterization :
    (∀ cs : List Char,
      (parse_code cs = .error .UnmatchedDelimiter ↔ scanDepth cs 0 = none) ∧
      (parse_code cs = .error .MissingDelimiter ↔ ∃ d, scanDepth cs 0 = some (d + 1)) ∧
      ((∃ t, parse_code cs = .ok t) ↔ scanDepth cs 0 = some 0)) ∧
    parse_code "[[]".toList = .error .MissingDelimiter ∧
    parse_code "[]]".toList = .error .UnmatchedDelimiter := by
  refine ⟨?_, rfl, rfl⟩
  intro cs
  have h := parseLoop_spec cs [[]] (by simp)
  simp only [List.length_cons, List.length_nil, Nat.add_sub_cancel] at h
  cases hsd : scanDepth cs 0 with
  | none =>
    have hp : parse_code cs = .error .UnmatchedDelimiter := by
      unfold parse_code
      rw [h.1 hsd]
    refine ⟨iff_of_true hp rfl, iff_of_false ?_ ?_, iff_of_false ?_ ?_⟩
    · rw [hp]; simp
    · rintro ⟨d, hd⟩
      exact Option.noConfusion hd
    · rintro ⟨t, ht⟩
      rw [hp] at ht
      exact Except.noConfusion ht
    · simp
  | some d =>
    obtain ⟨st', hok, hlen⟩ := h.2 d hsd
    cases d with
    | zero =>
      obtain ⟨a, ha⟩ := List.length_eq_one.mp hlen
      have hp : parse_code cs = .ok a := by
        unfold parse_code
        rw [hok, ha]
        simp
      refine ⟨iff_of_false ?_ ?_, iff_of_false ?_ ?_, iff_of_true ⟨a, hp⟩ rfl⟩
      · rw [hp]; simp
      · simp
      · rw [hp]; simp
      · rintro ⟨e, he⟩
        simp at he
    | succ e =>
      have hp : parse_code cs = .error .MissingDelimiter := by
        unfold parse_code
        rw [hok]
        simp [show st'.length > 1 from by omega]
      refine ⟨iff_of_false ?_ ?_, iff_of_true hp ⟨e, rfl⟩, iff_of_false ?_ ?_⟩
      · rw [hp]; simp
      · simp
      · rintro ⟨t, ht⟩
        rw [hp] at ht
        exact Except.noConfusion ht
      · simp
